import Mathlib

/-!
Verification development for the TTD runtime-info tracker
(`src/lib/Runtime/Debug/TTRuntimeInfoTracker.h` of ChakraCore).

The file embeds, as executable Lean definitions, the two template algorithms
that are fully present in the source (`SortDictIntoListOnNames`, a shell sort
over the gap sequence 701, 301, 132, 57, 23, 10, 4, 1, and
`LookupPositionInDictNameList`, a binary search over the sorted list), together
with spec-modelled definitions for the class members whose implementations are
declared in the header but not included in the extracted source.  Strings
compared by `wcscmp` are modelled as lists of (nonzero) UTF-16 code units;
machine `int32` index variables that can go negative are modelled as `Int`,
the rest as `Nat`.  A fatal `TTDAssert` failure is modelled as `none`.

Layout: all definitions first, then the theorems about them.
-/

set_option linter.unusedSectionVars false
set_option linter.unusedVariables false

namespace ChakraTTD

/-! ### Definitions -/

/-- Model of the C `wcscmp` used by the source to compare name strings:
lexicographic comparison of code-unit lists, where only the sign of the result
is meaningful.  A string that is a strict prefix of another compares smaller
(the terminating NUL compares below any real code unit). -/
def wcscmp : List Nat → List Nat → Int
  | [], [] => 0
  | [], _ :: _ => -1
  | _ :: _, [] => 1
  | a :: s1, b :: s2 =>
    if a < b then -1 else if b < a then 1 else wcscmp s1 s2

/-- Model of `JsUtil::List::Item`: read the element at an index.  All reads
performed by the embedded algorithms are in bounds, so the default value is
irrelevant there. -/
def item {α : Type} [Inhabited α] (l : List α) (i : Nat) : α :=
  l.getD i default

section SortDefs

variable {α : Type} [Inhabited α]

/-- Inner `for(j = i; j >= gap && wcscmp(...) > 0; j -= gap)` loop of
`SortDictIntoListOnNames` (source lines 292-296): shift strided predecessors
whose names compare greater than the name of `temp` one stride to the right,
returning the final list and the final value of `j`.  The extra conjunct
`0 < gap` is needed for termination; every gap of the source's gap sequence is
positive, so on all inputs the source presents the guard is exactly the C loop
condition. -/
def insLoop (nm : α → List Nat) (gap : Nat) (temp : α) (l : List α) (j : Nat) :
    List α × Nat :=
  if h : 0 < gap ∧ gap ≤ j ∧ 0 < wcscmp (nm (item l (j - gap))) (nm temp) then
    insLoop nm gap temp (l.set j (item l (j - gap))) (j - gap)
  else (l, j)
termination_by j
decreasing_by omega

/-- Body of the middle `for(int32 i = gap; i < llen; i++)` loop (source lines
286-299): save `temp = sortedObjList.Item(i)`, run the shift loop, then store
`temp` at the final position `j`. -/
def insStep (nm : α → List Nat) (gap : Nat) (l : List α) (i : Nat) : List α :=
  let temp := item l i
  let r := insLoop nm gap temp l i
  r.1.set r.2 temp

/-- The middle loop itself, iterating `i` from `gap` up to `llen - 1`. -/
def gapPassAux (nm : α → List Nat) (gap llen : Nat) (l : List α) (i : Nat) :
    List α :=
  if i < llen then gapPassAux nm gap llen (insStep nm gap l i) (i + 1) else l
termination_by llen - i
decreasing_by omega

/-- The gap sequence `{ 701, 301, 132, 57, 23, 10, 4, 1 }` of the source
(line 279). -/
def gaps : List Nat := [701, 301, 132, 57, 23, 10, 4, 1]

/-- Embedding of `TTD::SortDictIntoListOnNames` (source lines 267-301).  The
dictionary is modelled by its key enumeration order `keys` (the order in which
`objToNameMap.Map` adds the keys to the initially empty output list) together
with the total name assignment `nm` (`objToNameMap.Item`).  The shell sort
then runs one pass per gap, in the order of `gaps`, with `llen` fixed to the
element count before the passes. -/
def SortDictIntoListOnNames (nm : α → List Nat) (keys : List α) : List α :=
  let llen := keys.length
  gaps.foldl (fun l gap => gapPassAux nm gap llen l gap) keys

/-- Positions below `n` that are a multiple of `gap` apart hold elements in
non-decreasing `wcscmp` name order.  With `gap = 1` and `n = l.length` this is
full sortedness of the list; it is the postcondition of one shell-sort pass
with gap `gap`. -/
def GSortedBelow (nm : α → List Nat) (gap : Nat) (l : List α) (n : Nat) : Prop :=
  ∀ a b, a < b → b < n → gap ∣ (b - a) →
    wcscmp (nm (item l a)) (nm (item l b)) ≤ 0

/-- The `while(imin < imax)` loop of `LookupPositionInDictNameList` (source
lines 311-327), with the `int32` variables `imin`, `imax` as `Int`.  The extra
guard conjunct `0 ≤ imin` is needed for termination; it is invariant at the
single call site (`imin` starts at 0 and never decreases).  The local
`int imid = (imin + imax) / 2` of the source is inlined.  On the values the
guard admits both division operands are nonnegative, where Lean integer
division and the C truncated `int32` division agree. -/
def lookupLoop (nm : α → List Nat) (key : List Nat) (l : List α)
    (imin imax : Int) : Int × Int :=
  if h : 0 ≤ imin ∧ imin < imax then
    if wcscmp (nm (item l ((imin + imax) / 2).toNat)) key < 0 then
      lookupLoop nm key l ((imin + imax) / 2 + 1) imax
    else
      lookupLoop nm key l imin ((imin + imax) / 2)
  else (imin, imax)
termination_by (imax - imin).toNat
decreasing_by
  · omega
  · omega

/-- Embedding of `TTD::LookupPositionInDictNameList` (source lines 303-340).
`mustFind` is the template bool parameter.  A fired fatal `TTDAssert` is
modelled as `none`: the assert `imin == imax` after the loop (line 328), and
in "must find" mode the assert that the name at the final position equals the
key (line 333).  The debug-only `AssertMsg` at entry (line 306) aborts, on an
empty list, a computation that the `TTDAssert` of line 328 aborts as well, so
`none` is returned for the empty list on every build flavour. -/
def LookupPositionInDictNameList (mustFind : Bool) (nm : α → List Nat)
    (key : List Nat) (l : List α) : Option Int :=
  let r := lookupLoop nm key l 0 ((l.length : Int) - 1)
  if r.1 = r.2 then
    let resStr := nm (item l r.1.toNat)
    if mustFind then
      if wcscmp resStr key = 0 then some r.1 else none
    else
      some (if wcscmp resStr key = 0 then r.1 else -1)
  else none

end SortDefs

/-- `MAX_CONTEXT_COUNT` from the source (line 16). -/
def MAX_CONTEXT_COUNT : Nat := 32

/-- Modelled from the spec: the implementation of
`ThreadContextTTD::AddNewScriptContextRecord` is declared (source line 86) but
not included in the extracted source.  Per the spec, registration adds the
context to the live-context list, and fails if the live-context count would
exceed the fixed capacity of `MAX_CONTEXT_COUNT` (32); this fatal,
non-recoverable capacity error is modelled as `none`. -/
def AddNewScriptContextRecord {Ctx : Type} (contextList : List Ctx)
    (ctx : Ctx) : Option (List Ctx) :=
  if contextList.length + 1 ≤ MAX_CONTEXT_COUNT then some (contextList ++ [ctx])
  else none

/-- Registering a sequence of contexts one at a time, stopping at the first
capacity failure. -/
def registerAll {Ctx : Type} (contextList : List Ctx) (ctxs : List Ctx) :
    Option (List Ctx) :=
  ctxs.foldlM AddNewScriptContextRecord contextList

/-- The struct `TTDPendingAsyncBufferModification` (source lines 123-127):
the pending array buffer (a `Js::Var`, opaque here) and the monitored start
index (`uint32`). -/
structure TTDPendingAsyncBufferModification (Var : Type) where
  ArrayBufferVar : Var
  Index : Nat
deriving DecidableEq

/-- Modelled from the spec: `ScriptContextTTD::AddToAsyncPendingList` is
declared (source line 158) but its implementation is not in the extracted
source.  Per the spec it appends to the FIFO pending-modification queue, with
no deduplication and no reordering. -/
def AddToAsyncPendingList {M : Type} (q : List M) (m : M) : List M :=
  q ++ [m]

/-- Modelled from the spec: `ScriptContextTTD::GetFromAsyncPendingList`
(declared at source line 159) has pop-front semantics; `none` models an empty
queue. -/
def GetFromAsyncPendingList {M : Type} (q : List M) : Option (M × List M) :=
  match q with
  | [] => none
  | m :: rest => some (m, rest)

/-- Draining the pending queue to exhaustion by repeated
`GetFromAsyncPendingList`, collecting the yielded modifications in order. -/
def drainAsyncPendingList {M : Type} (q : List M) : List M :=
  match h : GetFromAsyncPendingList q with
  | none => []
  | some p => p.1 :: drainAsyncPendingList p.2
termination_by q.length
decreasing_by
  cases q with
  | nil => simp [GetFromAsyncPendingList] at h
  | cons a t =>
    simp [GetFromAsyncPendingList] at h
    rw [← h]
    simp

/-- Modelled from the spec: well-formedness of a path dictionary
(`m_coreObjToPathMap` and friends, source lines 203-205), as established by
the canonical walk: each object is assigned at most one path (first assignment
wins) and a path token canonically names exactly one object, so neither keys
nor path values repeat. -/
def PathMapWF {Obj Path : Type} (m : List (Obj × Path)) : Prop :=
  (m.map Prod.fst).Nodup ∧ (m.map Prod.snd).Nodup

/-- Modelled from the spec: `RuntimeContextInfo::ResolvePathForKnownObject`
(declared at source line 227, implementation not in the extracted source):
return the path assigned to the object in the path dictionary. -/
def ResolvePathForKnownObject {Obj Path : Type} [DecidableEq Obj]
    (m : List (Obj × Path)) (obj : Obj) : Option Path :=
  (m.find? (fun e => decide (e.1 = obj))).map Prod.snd

/-- Modelled from the spec: `RuntimeContextInfo::LookupKnownObjectFromPath`
(declared at source line 232, implementation not in the extracted source):
the inverse lookup from a path token to the object it names. -/
def LookupKnownObjectFromPath {Obj Path : Type} [DecidableEq Path]
    (m : List (Obj × Path)) (path : Path) : Option Obj :=
  (m.find? (fun e => decide (e.2 = path))).map Prod.fst

/-- The registry state of `ThreadContextTTD` observable by the destroy
notification: the active context (source line 42), the live context list
(line 43), the dead-script record list (line 44) and the context to
external-ref map (line 48). -/
structure ThreadContextTTDState (Ctx Ref Dead : Type) where
  activeContext : Option Ctx
  contextList : List Ctx
  deadScriptRecordList : List Dead
  ttdContextToExternalRefMap : List (Ctx × Ref)
deriving DecidableEq

/-- Modelled from the spec: `ThreadContextTTD::NotifyCtxDestroyInRecord`
(declared at source line 92, implementation not in the extracted source).
Called from an excluded section of collector processing, it may only check
whether `ctx` is in the context map (source comment, line 91); when present it
removes the context from the tracked state, when absent it is a no-op. -/
def NotifyCtxDestroyInRecord {Ctx Ref Dead : Type} [DecidableEq Ctx]
    (s : ThreadContextTTDState Ctx Ref Dead) (ctx : Ctx) :
    ThreadContextTTDState Ctx Ref Dead :=
  if s.ttdContextToExternalRefMap.any (fun e => decide (e.1 = ctx)) then
    { s with
      ttdContextToExternalRefMap :=
        s.ttdContextToExternalRefMap.filter (fun e => decide (e.1 ≠ ctx)),
      contextList := s.contextList.erase ctx }
  else s

/-- Name assignment used by the concrete witness instantiations: the entity
`n` is named by the one-code-unit string `[n]`. -/
def exampleName (n : Nat) : List Nat := [n]

/-! ### Theorems: the order defined by `wcscmp` -/

theorem wcscmp_self (a : List Nat) : wcscmp a a = 0 := by
  induction a with
  | nil => rfl
  | cons x s ih => simp [wcscmp, ih]

theorem wcscmp_cases (a b : List Nat) :
    wcscmp a b = -1 ∨ wcscmp a b = 0 ∨ wcscmp a b = 1 := by
  induction a generalizing b with
  | nil => cases b <;> simp [wcscmp]
  | cons x s ih =>
    cases b with
    | nil => simp [wcscmp]
    | cons y t =>
      by_cases hxy : x < y
      · simp [wcscmp, hxy]
      · by_cases hyx : y < x
        · simp [wcscmp, hxy, hyx]
        · simpa [wcscmp, hxy, hyx] using ih t

theorem wcscmp_eq_zero_iff (a b : List Nat) : wcscmp a b = 0 ↔ a = b := by
  induction a generalizing b with
  | nil => cases b <;> simp [wcscmp]
  | cons x s ih =>
    cases b with
    | nil => simp [wcscmp]
    | cons y t =>
      by_cases hxy : x < y
      · simp [wcscmp, hxy]
        omega
      · by_cases hyx : y < x
        · simp [wcscmp, hxy, hyx]
          omega
        · have hxy' : x = y := by omega
          subst hxy'
          simp [wcscmp, hxy, hyx, ih t]

theorem wcscmp_neg (a b : List Nat) : wcscmp a b = - wcscmp b a := by
  induction a generalizing b with
  | nil => cases b <;> simp [wcscmp]
  | cons x s ih =>
    cases b with
    | nil => simp [wcscmp]
    | cons y t =>
      by_cases hxy : x < y
      · have hyx : ¬ y < x := by omega
        simp [wcscmp, hxy, hyx]
      · by_cases hyx : y < x
        · simp [wcscmp, hxy, hyx]
        · simp [wcscmp, hxy, hyx, ih t]

theorem wcscmp_lt_trans {a b c : List Nat}
    (hab : wcscmp a b < 0) (hbc : wcscmp b c < 0) : wcscmp a c < 0 := by
  induction a generalizing b c with
  | nil =>
    cases b with
    | nil => simp [wcscmp] at hab
    | cons y t =>
      cases c with
      | nil => simp [wcscmp] at hbc
      | cons z u => simp [wcscmp]
  | cons x s ih =>
    cases b with
    | nil => simp [wcscmp] at hab
    | cons y t =>
      cases c with
      | nil => simp [wcscmp] at hbc
      | cons z u =>
        by_cases hxy : x < y
        · by_cases hyz : y < z
          · have hxz : x < z := by omega
            simp [wcscmp, hxz]
          · by_cases hzy : z < y
            · simp [wcscmp, hyz, hzy] at hbc
            · have hyz' : y = z := by omega
              subst hyz'
              simp [wcscmp, hxy]
        · by_cases hyx : y < x
          · simp [wcscmp, hxy, hyx] at hab
          · have hxy' : x = y := by omega
            subst hxy'
            simp [wcscmp, hxy, hyx] at hab
            by_cases hyz : x < z
            · simp [wcscmp, hyz]
            · by_cases hzy : z < x
              · simp [wcscmp, hyz, hzy] at hbc
              · have hyz' : x = z := by omega
                subst hyz'
                simp [wcscmp, hyz, hzy] at hbc ⊢
                exact ih hab hbc

theorem wcscmp_le_iff (a b : List Nat) :
    wcscmp a b ≤ 0 ↔ (wcscmp a b < 0 ∨ a = b) := by
  constructor
  · intro h
    rcases wcscmp_cases a b with h1 | h1 | h1
    · exact Or.inl (by omega)
    · exact Or.inr ((wcscmp_eq_zero_iff a b).mp h1)
    · omega
  · rintro (h | rfl)
    · omega
    · simp [wcscmp_self]

theorem wcscmp_le_trans {a b c : List Nat}
    (hab : wcscmp a b ≤ 0) (hbc : wcscmp b c ≤ 0) : wcscmp a c ≤ 0 := by
  rcases (wcscmp_le_iff a b).mp hab with h1 | rfl
  · rcases (wcscmp_le_iff b c).mp hbc with h2 | rfl
    · exact le_of_lt (wcscmp_lt_trans h1 h2)
    · exact le_of_lt h1
  · exact hbc

theorem wcscmp_le_lt_trans {a b c : List Nat}
    (hab : wcscmp a b ≤ 0) (hbc : wcscmp b c < 0) : wcscmp a c < 0 := by
  rcases (wcscmp_le_iff a b).mp hab with h1 | rfl
  · exact wcscmp_lt_trans h1 hbc
  · exact hbc

theorem wcscmp_lt_le_trans {a b c : List Nat}
    (hab : wcscmp a b < 0) (hbc : wcscmp b c ≤ 0) : wcscmp a c < 0 := by
  rcases (wcscmp_le_iff b c).mp hbc with h2 | rfl
  · exact wcscmp_lt_trans hab h2
  · exact hab

theorem wcscmp_le_of_pos {a b : List Nat}
    (h : 0 < wcscmp a b) : wcscmp b a ≤ 0 := by
  have := wcscmp_neg a b
  omega

theorem wcscmp_not_pos_iff (a b : List Nat) :
    ¬ 0 < wcscmp a b ↔ wcscmp a b ≤ 0 := by omega

/-! ### Theorems: indexed list access and permutation helpers -/

section ListHelpers

variable {α : Type} [Inhabited α]

theorem item_eq_getElem (l : List α) (i : Nat) (h : i < l.length) :
    item l i = l[i] := by
  simp [item, List.getD_eq_getElem?_getD, List.getElem?_eq_getElem h]

theorem item_set_self (l : List α) (i : Nat) (v : α) (h : i < l.length) :
    item (l.set i v) i = v := by
  simp [item, List.getD_eq_getElem?_getD, List.getElem?_set_self h]

theorem item_set_ne (l : List α) (i j : Nat) (v : α) (hne : i ≠ j) :
    item (l.set i v) j = item l j := by
  simp [item, List.getD_eq_getElem?_getD, List.getElem?_set_ne hne]

theorem item_mem (l : List α) (i : Nat) (h : i < l.length) : item l i ∈ l := by
  rw [item_eq_getElem l i h]
  exact List.getElem_mem h

theorem set_item_self (l : List α) (i : Nat) (h : i < l.length) :
    l.set i (item l i) = l := by
  induction l generalizing i with
  | nil => simp at h
  | cons a tl ih =>
    cases i with
    | zero => simp [item, List.getD]
    | succ k =>
      simp only [List.length_cons, Nat.succ_lt_succ_iff] at h
      have : item (a :: tl) (k + 1) = item tl k := by
        simp [item, List.getD_eq_getElem?_getD]
      simp [List.set, this, ih k h]

/-- Swapping the head of a cons with the element set at position `k`. -/
theorem perm_cons_set (tl : List α) (k : Nat) (a v : α) (hk : k < tl.length) :
    List.Perm (v :: tl.set k a) (a :: tl.set k v) := by
  induction tl generalizing k with
  | nil => simp at hk
  | cons b r ih =>
    cases k with
    | zero => simpa [List.set] using List.Perm.swap a v r
    | succ k' =>
      simp only [List.length_cons, Nat.succ_lt_succ_iff] at hk
      simp only [List.set]
      exact ((List.Perm.swap b v (r.set k' a)).trans
        (List.Perm.cons b (ih k' hk))).trans (List.Perm.swap a b (r.set k' v))

/-- Writing element `i` into position `j` and then overwriting position `i`
with `v` is, up to permutation, the same as just writing `v` at position `j`:
the loop body of the shell sort preserves the virtual multiset. -/
theorem perm_set_set (l : List α) (i j : Nat) (v : α)
    (hij : i < j) (hj : j < l.length) :
    List.Perm ((l.set j (item l i)).set i v) (l.set j v) := by
  induction l generalizing i j with
  | nil => simp at hj
  | cons a tl ih =>
    cases j with
    | zero => omega
    | succ j' =>
      simp only [List.length_cons, Nat.succ_lt_succ_iff] at hj
      cases i with
      | zero =>
        have hitem : item (a :: tl) 0 = a := by simp [item, List.getD]
        rw [hitem]
        simp only [List.set]
        exact perm_cons_set tl j' a v hj
      | succ i' =>
        have hitem : item (a :: tl) (i' + 1) = item tl i' := by
          simp [item, List.getD_eq_getElem?_getD]
        rw [hitem]
        simp only [List.set]
        exact List.Perm.cons a (ih i' j' (by omega) hj)

end ListHelpers

/-! ### Theorems: the shell sort -/

section ShellSort

variable {α : Type} [Inhabited α]

theorem insLoop_length (nm : α → List Nat) (gap : Nat) (temp : α)
    (l : List α) (j : Nat) :
    (insLoop nm gap temp l j).1.length = l.length := by
  induction l, j using insLoop.induct nm gap temp with
  | case1 l j h ih =>
    rw [insLoop, dif_pos h]
    simpa using ih
  | case2 l j h =>
    rw [insLoop, dif_neg h]

theorem insLoop_le_dvd (nm : α → List Nat) (gap : Nat) (temp : α)
    (l : List α) (j : Nat) (hgap : 0 < gap) :
    (insLoop nm gap temp l j).2 ≤ j ∧
      gap ∣ (j - (insLoop nm gap temp l j).2) := by
  induction l, j using insLoop.induct nm gap temp with
  | case1 l j h ih =>
    rw [insLoop, dif_pos h]
    obtain ⟨hle, hdvd⟩ := ih
    refine ⟨by omega, ?_⟩
    have heq : j - (insLoop nm gap temp (l.set j (item l (j - gap))) (j - gap)).2
        = ((j - gap) - (insLoop nm gap temp (l.set j (item l (j - gap))) (j - gap)).2) + gap := by
      omega
    rw [heq]
    exact dvd_add hdvd (dvd_refl gap)
  | case2 l j h =>
    rw [insLoop, dif_neg h]
    exact ⟨le_refl j, by simp⟩

theorem insLoop_unchanged (nm : α → List Nat) (gap : Nat) (temp : α)
    (l : List α) (j : Nat) (hgap : 0 < gap) :
    ∀ k, ¬ ((insLoop nm gap temp l j).2 < k ∧ k ≤ j ∧ gap ∣ (j - k)) →
      item (insLoop nm gap temp l j).1 k = item l k := by
  induction l, j using insLoop.induct nm gap temp with
  | case1 l j h ih =>
    rw [insLoop, dif_pos h]
    intro k hk
    set rec := insLoop nm gap temp (l.set j (item l (j - gap))) (j - gap) with hrec
    have hrle := (insLoop_le_dvd nm gap temp (l.set j (item l (j - gap))) (j - gap) hgap).1
    rw [← hrec] at hrle
    have hkj : k ≠ j := by
      intro he
      apply hk
      rw [he]
      exact ⟨by omega, le_refl j, by simp⟩
    have hcond : ¬ (rec.2 < k ∧ k ≤ j - gap ∧ gap ∣ (j - gap - k)) := by
      rintro ⟨h1, h2, h3⟩
      refine hk ⟨h1, by omega, ?_⟩
      have heq : j - k = (j - gap - k) + gap := by omega
      rw [heq]
      exact dvd_add h3 (dvd_refl gap)
    rw [ih k hcond]
    exact item_set_ne l j k _ (fun he => hkj he.symm)
  | case2 l j h =>
    rw [insLoop, dif_neg h]
    intro k _
    rfl

theorem insLoop_written (nm : α → List Nat) (gap : Nat) (temp : α)
    (l : List α) (j : Nat) (hgap : 0 < gap) (hj : j < l.length) :
    ∀ k, (insLoop nm gap temp l j).2 < k → k ≤ j → gap ∣ (j - k) →
      item (insLoop nm gap temp l j).1 k = item l (k - gap) ∧
      0 < wcscmp (nm (item l (k - gap))) (nm temp) := by
  induction l, j using insLoop.induct nm gap temp with
  | case1 l j h ih =>
    rw [insLoop, dif_pos h]
    intro k h1 h2 h3
    set lmid := l.set j (item l (j - gap)) with hlmid
    set rec := insLoop nm gap temp lmid (j - gap) with hrec
    have hrle := (insLoop_le_dvd nm gap temp lmid (j - gap) hgap).1
    rw [← hrec] at hrle
    by_cases hkle : k ≤ j - gap
    · have h3' : gap ∣ (j - gap - k) := by
        have heq : j - gap - k = (j - k) - gap := by omega
        rw [heq]
        exact Nat.dvd_sub' h3 (dvd_refl gap)
      have hkg : k - gap ≠ j := by omega
      have hmid : j - gap < lmid.length := by
        rw [hlmid]
        simp only [List.length_set]
        omega
      obtain ⟨hw, hv⟩ := ih hmid k h1 hkle h3'
      refine ⟨hw.trans ?_, ?_⟩
      · exact item_set_ne l j (k - gap) _ (fun he => hkg he.symm)
      · rwa [item_set_ne l j (k - gap) _ (fun he => hkg he.symm)] at hv
    · have hkj : k = j := by
        rcases h3 with ⟨t, ht⟩
        rcases t with _ | t
        · omega
        · have : gap ≤ j - k := by
            rw [ht]
            have : gap * (t + 1) = gap * t + gap := by ring
            omega
          omega
      rw [hkj]
      have hun := insLoop_unchanged nm gap temp lmid (j - gap) hgap j
        (by rintro ⟨hh1, hh2, hh3⟩; omega)
      rw [← hrec] at hun
      refine ⟨hun.trans ?_, h.2.2⟩
      rw [hlmid]
      exact item_set_self l j _ (by omega)
  | case2 l j h =>
    rw [insLoop, dif_neg h]
    intro k h1 h2 _
    omega

theorem insLoop_exit (nm : α → List Nat) (gap : Nat) (temp : α)
    (l : List α) (j : Nat) (hgap : 0 < gap) :
    (insLoop nm gap temp l j).2 < gap ∨
      wcscmp (nm (item l ((insLoop nm gap temp l j).2 - gap))) (nm temp) ≤ 0 := by
  induction l, j using insLoop.induct nm gap temp with
  | case1 l j h ih =>
    rw [insLoop, dif_pos h]
    set lmid := l.set j (item l (j - gap)) with hlmid
    set rec := insLoop nm gap temp lmid (j - gap) with hrec
    have hrle := (insLoop_le_dvd nm gap temp lmid (j - gap) hgap).1
    rw [← hrec] at hrle
    rcases ih with hlt | hle
    · exact Or.inl hlt
    · right
      rwa [hlmid, item_set_ne l j (rec.2 - gap) _ (by omega)] at hle
  | case2 l j h =>
    rw [insLoop, dif_neg h]
    dsimp only
    by_cases hj : j < gap
    · exact Or.inl hj
    · right
      have : ¬ 0 < wcscmp (nm (item l (j - gap))) (nm temp) := by
        intro hpos
        exact h ⟨hgap, by omega, hpos⟩
      omega

theorem insLoop_perm (nm : α → List Nat) (gap : Nat) (temp : α)
    (l : List α) (j : Nat) (hgap : 0 < gap) (hj : j < l.length) :
    ∀ v, List.Perm ((insLoop nm gap temp l j).1.set (insLoop nm gap temp l j).2 v)
      (l.set j v) := by
  induction l, j using insLoop.induct nm gap temp with
  | case1 l j h ih =>
    rw [insLoop, dif_pos h]
    intro v
    have hjlen : j - gap < (l.set j (item l (j - gap))).length := by
      simp only [List.length_set]
      omega
    refine (ih hjlen v).trans ?_
    exact perm_set_set l (j - gap) j v (by omega) hj
  | case2 l j h =>
    rw [insLoop, dif_neg h]
    intro v
    exact List.Perm.refl _

theorem insStep_length (nm : α → List Nat) (gap : Nat) (l : List α) (i : Nat) :
    (insStep nm gap l i).length = l.length := by
  simp [insStep, List.length_set, insLoop_length]

theorem insStep_perm (nm : α → List Nat) (gap : Nat) (l : List α) (i : Nat)
    (hgap : 0 < gap) (hi : i < l.length) :
    List.Perm (insStep nm gap l i) l := by
  have hperm := insLoop_perm nm gap (item l i) l i hgap hi (item l i)
  rw [set_item_self l i hi] at hperm
  exact hperm

theorem insStep_gsorted (nm : α → List Nat) (gap : Nat) (l : List α) (i : Nat)
    (hgap : 0 < gap) (hi : i < l.length) (hs : GSortedBelow nm gap l i) :
    GSortedBelow nm gap (insStep nm gap l i) (i + 1) := by
  intro a b hab hb hdvd
  have hb' : b ≤ i := by omega
  set temp := item l i with htemp
  set r := insLoop nm gap temp l i with hr
  have hld := insLoop_le_dvd nm gap temp l i hgap
  have hunch := insLoop_unchanged nm gap temp l i hgap
  have hwrit := insLoop_written nm gap temp l i hgap hi
  have hexit := insLoop_exit nm gap temp l i hgap
  have hlen := insLoop_length nm gap temp l i
  rw [← hr] at hld hunch hwrit hexit hlen
  have hrlen : r.2 < r.1.length := by rw [hlen]; omega
  have hstep : insStep nm gap l i = r.1.set r.2 temp := rfl
  rw [hstep]
  have hat : ∀ k, k ≤ i → gap ∣ (i - k) → r.2 < k →
      item (r.1.set r.2 temp) k = item l (k - gap) ∧
      0 < wcscmp (nm (item l (k - gap))) (nm temp) := by
    intro k hk hdk hrk
    have hkne : r.2 ≠ k := by omega
    rw [item_set_ne r.1 r.2 k temp hkne]
    exact hwrit k hrk hk hdk
  have hatj : item (r.1.set r.2 temp) r.2 = temp := item_set_self r.1 r.2 temp hrlen
  have hun : ∀ k, ¬ (r.2 < k ∧ k ≤ i ∧ gap ∣ (i - k)) → r.2 ≠ k →
      item (r.1.set r.2 temp) k = item l k := by
    intro k hcond hne
    rw [item_set_ne r.1 r.2 k temp hne]
    exact hunch k hcond
  by_cases hclsb : gap ∣ (i - b)
  · have hclsa : gap ∣ (i - a) := by
      have heq : i - a = (i - b) + (b - a) := by omega
      rw [heq]
      exact dvd_add hclsb hdvd
    rcases lt_trichotomy b r.2 with hbz | hbz | hbz
    · have hua : item (r.1.set r.2 temp) a = item l a :=
        hun a (by intro hcon; exact absurd hcon.1 (by omega)) (by omega)
      have hub : item (r.1.set r.2 temp) b = item l b :=
        hun b (by intro hcon; exact absurd hcon.1 (by omega)) (by omega)
      rw [hua, hub]
      exact hs a b hab (by omega) hdvd
    · rw [hbz, hatj]
      have hua : item (r.1.set r.2 temp) a = item l a :=
        hun a (by intro hcon; exact absurd hcon.1 (by omega)) (by omega)
      rw [hua]
      have hdra : gap ∣ (r.2 - a) := by
        have heq : r.2 - a = (i - a) - (i - r.2) := by omega
        rw [heq]
        exact Nat.dvd_sub' hclsa hld.2
      have hga : gap ≤ r.2 - a := Nat.le_of_dvd (by omega) hdra
      rcases hexit with hlt | hle
      · omega
      · by_cases hae : a = r.2 - gap
        · rw [hae]
          exact hle
        · have hsab : wcscmp (nm (item l a)) (nm (item l (r.2 - gap))) ≤ 0 := by
            apply hs a (r.2 - gap) (by omega) (by omega)
            have heq : (r.2 - gap) - a = (r.2 - a) - gap := by omega
            rw [heq]
            exact Nat.dvd_sub' hdra (dvd_refl gap)
          exact wcscmp_le_trans hsab hle
    · have hwb := hat b hb' hclsb hbz
      rw [hwb.1]
      have hdrb : gap ∣ (b - r.2) := by
        have heq : b - r.2 = (i - r.2) - (i - b) := by omega
        rw [heq]
        exact Nat.dvd_sub' hld.2 hclsb
      have hgb : gap ≤ b - r.2 := Nat.le_of_dvd (by omega) hdrb
      rcases lt_trichotomy a r.2 with haz | haz | haz
      · have hua : item (r.1.set r.2 temp) a = item l a :=
          hun a (by intro hcon; exact absurd hcon.1 (by omega)) (by omega)
        rw [hua]
        apply hs a (b - gap) (by omega) (by omega)
        have heq : (b - gap) - a = (b - a) - gap := by omega
        rw [heq]
        exact Nat.dvd_sub' hdvd (dvd_refl gap)
      · rw [haz, hatj]
        exact wcscmp_le_of_pos hwb.2
      · have hwa := hat a (by omega) hclsa haz
        rw [hwa.1]
        have hdra : gap ∣ (a - r.2) := by
          have heq : a - r.2 = (i - r.2) - (i - a) := by omega
          rw [heq]
          exact Nat.dvd_sub' hld.2 hclsa
        have hga : gap ≤ a - r.2 := Nat.le_of_dvd (by omega) hdra
        apply hs (a - gap) (b - gap) (by omega) (by omega)
        have heq : (b - gap) - (a - gap) = b - a := by omega
        rw [heq]
        exact hdvd
  · have hbi : b < i := by
      rcases Nat.eq_or_lt_of_le hb' with he | hlt
      · exfalso
        apply hclsb
        rw [he]
        simp
      · exact hlt
    have hclsa : ¬ gap ∣ (i - a) := by
      intro hda
      apply hclsb
      have heq : i - b = (i - a) - (b - a) := by omega
      rw [heq]
      exact Nat.dvd_sub' hda hdvd
    have hane : r.2 ≠ a := by
      intro he
      rw [← he] at hclsa
      exact hclsa hld.2
    have hbne : r.2 ≠ b := by
      intro he
      rw [← he] at hclsb
      exact hclsb hld.2
    have hua : item (r.1.set r.2 temp) a = item l a :=
      hun a (by intro hcon; exact hclsa hcon.2.2) hane
    have hub : item (r.1.set r.2 temp) b = item l b :=
      hun b (by intro hcon; exact hclsb hcon.2.2) hbne
    rw [hua, hub]
    exact hs a b hab hbi hdvd

theorem gsorted_mono (nm : α → List Nat) (gap : Nat) (l : List α) {m n : Nat}
    (h : GSortedBelow nm gap l n) (hmn : m ≤ n) : GSortedBelow nm gap l m :=
  fun a b hab hb hd => h a b hab (by omega) hd

theorem gsorted_entry (nm : α → List Nat) (gap : Nat) (l : List α)
    (hgap : 0 < gap) : GSortedBelow nm gap l gap := by
  intro a b hab hb hdvd
  have := Nat.le_of_dvd (by omega) hdvd
  omega

theorem gapPassAux_length (nm : α → List Nat) (gap llen : Nat) (l : List α)
    (i : Nat) : (gapPassAux nm gap llen l i).length = l.length := by
  induction l, i using gapPassAux.induct nm gap llen with
  | case1 l i h ih =>
    rw [gapPassAux, if_pos h, ih, insStep_length]
  | case2 l i h =>
    rw [gapPassAux, if_neg h]

theorem gapPassAux_perm (nm : α → List Nat) (gap llen : Nat) (l : List α)
    (i : Nat) (hgap : 0 < gap) (hlen : l.length = llen) :
    List.Perm (gapPassAux nm gap llen l i) l := by
  induction l, i using gapPassAux.induct nm gap llen with
  | case1 l i h ih =>
    rw [gapPassAux, if_pos h]
    have hi : i < l.length := by omega
    have hlen2 : (insStep nm gap l i).length = llen := by
      rw [insStep_length]
      exact hlen
    exact (ih hlen2).trans (insStep_perm nm gap l i hgap hi)
  | case2 l i h =>
    rw [gapPassAux, if_neg h]

theorem gapPassAux_gsorted (nm : α → List Nat) (gap llen : Nat) (l : List α)
    (i : Nat) (hgap : 0 < gap) (hlen : l.length = llen)
    (hs : GSortedBelow nm gap l i) :
    GSortedBelow nm gap (gapPassAux nm gap llen l i) llen := by
  induction l, i using gapPassAux.induct nm gap llen with
  | case1 l i h ih =>
    rw [gapPassAux, if_pos h]
    have hi : i < l.length := by omega
    exact ih (by rw [insStep_length]; exact hlen)
      (insStep_gsorted nm gap l i hgap hi hs)
  | case2 l i h =>
    rw [gapPassAux, if_neg h]
    exact gsorted_mono nm gap l hs (by omega)

/-- One shell-sort pass as run by the source for a given gap: the middle loop
started at `i = gap`. -/
theorem gapPass_spec (nm : α → List Nat) (gap llen : Nat) (l : List α)
    (hgap : 0 < gap) (hlen : l.length = llen) :
    List.Perm (gapPassAux nm gap llen l gap) l ∧
      GSortedBelow nm gap (gapPassAux nm gap llen l gap) llen :=
  ⟨gapPassAux_perm nm gap llen l gap hgap hlen,
    gapPassAux_gsorted nm gap llen l gap hgap hlen (gsorted_entry nm gap l hgap)⟩

theorem gaps_pos : ∀ g ∈ gaps, 0 < g := by
  intro g hg
  simp only [gaps, List.mem_cons, List.not_mem_nil, or_false] at hg
  rcases hg with rfl | rfl | rfl | rfl | rfl | rfl | rfl | rfl <;> norm_num

theorem foldl_passes (nm : α → List Nat) (llen : Nat) :
    ∀ gs : List Nat, (∀ g ∈ gs, 0 < g) → ∀ l : List α, l.length = llen →
      (gs.foldl (fun l gap => gapPassAux nm gap llen l gap) l).length = llen ∧
      List.Perm (gs.foldl (fun l gap => gapPassAux nm gap llen l gap) l) l := by
  intro gs
  induction gs with
  | nil =>
    intro _ l hl
    exact ⟨hl, List.Perm.refl l⟩
  | cons g gs ih =>
    intro hpos l hl
    have hg : 0 < g := hpos g (List.mem_cons_self g gs)
    simp only [List.foldl_cons]
    have hl2 : (gapPassAux nm g llen l g).length = llen := by
      rw [gapPassAux_length]
      exact hl
    obtain ⟨h1, h2⟩ :=
      ih (fun x hx => hpos x (List.mem_cons_of_mem g hx)) (gapPassAux nm g llen l g) hl2
    exact ⟨h1, h2.trans (gapPassAux_perm nm g llen l g hg hl)⟩

theorem sortDict_perm (nm : α → List Nat) (keys : List α) :
    List.Perm (SortDictIntoListOnNames nm keys) keys :=
  (foldl_passes nm keys.length gaps gaps_pos keys rfl).2

theorem sortDict_gsorted_one (nm : α → List Nat) (keys : List α) :
    GSortedBelow nm 1 (SortDictIntoListOnNames nm keys) keys.length := by
  have hpre := foldl_passes nm keys.length ([701, 301, 132, 57, 23, 10, 4])
    (by intro g hg
        simp only [List.mem_cons, List.not_mem_nil, or_false] at hg
        rcases hg with rfl | rfl | rfl | rfl | rfl | rfl | rfl <;> norm_num)
    keys rfl
  have heq : SortDictIntoListOnNames nm keys =
      gapPassAux nm 1 keys.length
        (([701, 301, 132, 57, 23, 10, 4] : List Nat).foldl
          (fun l gap => gapPassAux nm gap keys.length l gap) keys) 1 := rfl
  rw [heq]
  exact gapPassAux_gsorted nm 1 keys.length _ 1 one_pos hpre.1
    (gsorted_entry nm 1 _ one_pos)

theorem sortDict_pairwise (nm : α → List Nat) (keys : List α) :
    (SortDictIntoListOnNames nm keys).Pairwise
      (fun x y => wcscmp (nm x) (nm y) ≤ 0) := by
  rw [List.pairwise_iff_getElem]
  intro i j hi hj hij
  have hlen : (SortDictIntoListOnNames nm keys).length = keys.length :=
    (foldl_passes nm keys.length gaps gaps_pos keys rfl).1
  have hgs := sortDict_gsorted_one nm keys i j hij (by omega) (one_dvd _)
  rwa [item_eq_getElem _ i (by omega), item_eq_getElem _ j (by omega)] at hgs

end ShellSort

/-! ### Theorems: the binary search -/

section Lookup

variable {α : Type} [Inhabited α]

theorem pairwise_le_item {nm : α → List Nat} {l : List α}
    (hs : l.Pairwise (fun x y => wcscmp (nm x) (nm y) ≤ 0))
    {a b : Nat} (hab : a ≤ b) (hb : b < l.length) :
    wcscmp (nm (item l a)) (nm (item l b)) ≤ 0 := by
  rcases Nat.eq_or_lt_of_le hab with rfl | hlt
  · simp [wcscmp_self]
  · rw [item_eq_getElem l a (by omega), item_eq_getElem l b hb]
    exact List.pairwise_iff_getElem.mp hs a b (by omega) hb hlt

/-- The loop always exits with `imin = imax` inside the initial interval:
the `TTDAssert` after the loop holds whenever the interval is well formed. -/
theorem lookupLoop_exits (nm : α → List Nat) (key : List Nat) (l : List α) :
    ∀ imin imax : Int, 0 ≤ imin → imin ≤ imax →
      ∃ r : Int, lookupLoop nm key l imin imax = (r, r) ∧
        imin ≤ r ∧ r ≤ imax := by
  intro imin imax
  induction imin, imax using lookupLoop.induct nm key l with
  | case1 imin imax h hcmp ih =>
    intro h0 hle
    rw [lookupLoop, dif_pos h, if_pos hcmp]
    obtain ⟨r, hr, hr1, hr2⟩ := ih (by omega) (by omega)
    exact ⟨r, hr, by omega, by omega⟩
  | case2 imin imax h hcmp ih =>
    intro h0 hle
    rw [lookupLoop, dif_pos h, if_neg hcmp]
    obtain ⟨r, hr, hr1, hr2⟩ := ih (by omega) (by omega)
    exact ⟨r, hr, by omega, by omega⟩
  | case3 imin imax h =>
    intro h0 hle
    rw [lookupLoop, dif_neg h]
    exact ⟨imin, by rw [show imax = imin by omega], le_refl imin, by omega⟩

/-- Full loop invariant: positions strictly below the answer hold names
strictly below the key, and an occurrence of the key inside the interval is
preserved down to the answer position. -/
theorem lookupLoop_spec (nm : α → List Nat) (key : List Nat) (l : List α)
    (hs : l.Pairwise (fun x y => wcscmp (nm x) (nm y) ≤ 0)) :
    ∀ imin imax : Int, 0 ≤ imin → imin ≤ imax → imax < (l.length : Int) →
      (∀ p : Nat, (p : Int) < imin → wcscmp (nm (item l p)) key < 0) →
      ∃ r : Int, lookupLoop nm key l imin imax = (r, r) ∧
        imin ≤ r ∧ r ≤ imax ∧
        (∀ p : Nat, (p : Int) < r → wcscmp (nm (item l p)) key < 0) ∧
        ((∃ q : Nat, imin ≤ (q : Int) ∧ (q : Int) ≤ imax ∧
            nm (item l q) = key) →
          nm (item l r.toNat) = key) := by
  intro imin imax
  induction imin, imax using lookupLoop.induct nm key l with
  | case1 imin imax h hcmp ih =>
    intro h0 hle hmax hA
    rw [lookupLoop, dif_pos h, if_pos hcmp]
    have himid0 : 0 ≤ (imin + imax) / 2 := by omega
    have himidlt : (imin + imax) / 2 < imax := by omega
    have himidge : imin ≤ (imin + imax) / 2 := by omega
    have hA' : ∀ p : Nat, (p : Int) < (imin + imax) / 2 + 1 →
        wcscmp (nm (item l p)) key < 0 := by
      intro p hp
      by_cases hplow : (p : Int) < imin
      · exact hA p hplow
      · have hple : p ≤ ((imin + imax) / 2).toNat := by omega
        have hmidlen : ((imin + imax) / 2).toNat < l.length := by omega
        exact wcscmp_le_lt_trans (pairwise_le_item hs hple hmidlen) hcmp
    obtain ⟨r, hr, hr1, hr2, hr3, hr4⟩ := ih (by omega) (by omega) (by omega) hA'
    refine ⟨r, hr, by omega, by omega, hr3, ?_⟩
    rintro ⟨q, hq1, hq2, hq3⟩
    apply hr4
    refine ⟨q, ?_, hq2, hq3⟩
    by_contra hqlow
    push_neg at hqlow
    have hq4 : (q : Int) < (imin + imax) / 2 + 1 := by omega
    have := hA' q hq4
    rw [hq3, wcscmp_self] at this
    omega
  | case2 imin imax h hcmp ih =>
    intro h0 hle hmax hA
    rw [lookupLoop, dif_pos h, if_neg hcmp]
    have himid0 : 0 ≤ (imin + imax) / 2 := by omega
    have himidlt : (imin + imax) / 2 < imax := by omega
    have himidge : imin ≤ (imin + imax) / 2 := by omega
    obtain ⟨r, hr, hr1, hr2, hr3, hr4⟩ := ih (by omega) (by omega) (by omega) hA
    refine ⟨r, hr, hr1, by omega, hr3, ?_⟩
    rintro ⟨q, hq1, hq2, hq3⟩
    apply hr4
    by_cases hqhi : (q : Int) ≤ (imin + imax) / 2
    · exact ⟨q, hq1, hqhi, hq3⟩
    · push_neg at hqhi
      have hmidle : ((imin + imax) / 2).toNat ≤ q := by omega
      have hqlen : q < l.length := by omega
      have hle2 : wcscmp (nm (item l ((imin + imax) / 2).toNat)) key ≤ 0 := by
        have hw := pairwise_le_item hs hmidle hqlen
        rw [hq3] at hw
        exact hw
      have heq0 : wcscmp (nm (item l ((imin + imax) / 2).toNat)) key = 0 := by
        omega
      refine ⟨((imin + imax) / 2).toNat, by omega, by omega, ?_⟩
      exact (wcscmp_eq_zero_iff _ _).mp heq0
  | case3 imin imax h =>
    intro h0 hle hmax hA
    rw [lookupLoop, dif_neg h]
    have heq : imax = imin := by omega
    refine ⟨imin, by rw [heq], le_refl imin, by omega, hA, ?_⟩
    rintro ⟨q, hq1, hq2, hq3⟩
    have hqn : q = imin.toNat := by omega
    rw [← hqn]
    exact hq3

/-- The exit state of the loop as entered by `LookupPositionInDictNameList`
on a non-empty sorted list. -/
theorem lookup_exit (nm : α → List Nat) (key : List Nat) (l : List α)
    (hne : l ≠ [])
    (hs : l.Pairwise (fun x y => wcscmp (nm x) (nm y) ≤ 0)) :
    ∃ r : Int, lookupLoop nm key l 0 ((l.length : Int) - 1) = (r, r) ∧
      0 ≤ r ∧ r.toNat < l.length ∧
      (∀ p : Nat, p < r.toNat → wcscmp (nm (item l p)) key < 0) ∧
      ((∃ q : Nat, q < l.length ∧ nm (item l q) = key) →
        nm (item l r.toNat) = key) := by
  have hlen : 0 < l.length := List.length_pos.mpr hne
  obtain ⟨r, hr, h1, h2, h3, h4⟩ := lookupLoop_spec nm key l hs 0
    ((l.length : Int) - 1) (le_refl 0) (by omega) (by omega)
    (by intro p hp; exact absurd hp (by omega))
  refine ⟨r, hr, h1, by omega, ?_, ?_⟩
  · intro p hp
    exact h3 p (by omega)
  · rintro ⟨q, hq1, hq2⟩
    exact h4 ⟨q, by omega, by omega, hq2⟩

/-- Unfolding of `LookupPositionInDictNameList` once the loop result is
known to be a diagonal pair. -/
theorem lookup_eval (mustFind : Bool) (nm : α → List Nat) (key : List Nat)
    (l : List α) (r : Int)
    (hr : lookupLoop nm key l 0 ((l.length : Int) - 1) = (r, r)) :
    LookupPositionInDictNameList mustFind nm key l =
      (if mustFind then
        if wcscmp (nm (item l r.toNat)) key = 0 then some r else none
      else some (if wcscmp (nm (item l r.toNat)) key = 0 then r else -1)) := by
  unfold LookupPositionInDictNameList
  rw [hr]
  simp

end Lookup

/-! ### Theorems: the spec-modelled operations -/

theorem registerAll_ok {Ctx : Type} :
    ∀ (ctxs s : List Ctx), s.length + ctxs.length ≤ MAX_CONTEXT_COUNT →
      registerAll s ctxs = some (s ++ ctxs) := by
  intro ctxs
  induction ctxs with
  | nil =>
    intro s h
    simp [registerAll]
  | cons c cs ih =>
    intro s h
    simp only [List.length_cons] at h
    have hstep : AddNewScriptContextRecord s c = some (s ++ [c]) := by
      unfold AddNewScriptContextRecord
      rw [if_pos (by omega)]
    have hrec := ih (s ++ [c]) (by simp; omega)
    simp only [registerAll, List.foldlM_cons, hstep, Option.bind_eq_bind,
      Option.some_bind] at hrec ⊢
    rw [hrec]
    simp

theorem addContext_full {Ctx : Type} (s : List Ctx) (c : Ctx)
    (h : MAX_CONTEXT_COUNT ≤ s.length) :
    AddNewScriptContextRecord s c = none := by
  unfold AddNewScriptContextRecord
  rw [if_neg (by omega)]

theorem addToAsync_foldl {M : Type} :
    ∀ (ms q : List M), ms.foldl AddToAsyncPendingList q = q ++ ms := by
  intro ms
  induction ms with
  | nil =>
    intro q
    simp
  | cons m ms ih =>
    intro q
    simp only [List.foldl_cons, AddToAsyncPendingList, ih, List.append_assoc,
      List.singleton_append]

theorem drainAsync_id {M : Type} : ∀ q : List M, drainAsyncPendingList q = q := by
  intro q
  induction q with
  | nil =>
    rw [drainAsyncPendingList]
    simp [GetFromAsyncPendingList]
  | cons m rest ih =>
    rw [drainAsyncPendingList]
    simp [GetFromAsyncPendingList, ih]

theorem pathMap_of_resolve {Obj Path : Type} [DecidableEq Obj]
    {m : List (Obj × Path)} {obj : Obj} {path : Path}
    (hres : ResolvePathForKnownObject m obj = some path) :
    ∃ e, e ∈ m ∧ e.1 = obj ∧ e.2 = path := by
  unfold ResolvePathForKnownObject at hres
  cases hfind : m.find? (fun e => decide (e.1 = obj)) with
  | none =>
    rw [hfind] at hres
    simp at hres
  | some e =>
    rw [hfind] at hres
    simp at hres
    have he1 : e.1 = obj := by
      have := List.find?_some hfind
      simpa using this
    exact ⟨e, List.mem_of_find?_eq_some hfind, he1, by
      simpa using hres⟩

/-- Behaviour of the lookup on the 0-element list: the loop is entered with
`imin = 0`, `imax = -1`, exits immediately, and the fatal assert
`imin == imax` fires (modelled `none`) in both lookup modes. -/
theorem lookup_empty {α : Type} [Inhabited α] (mustFind : Bool)
    (nm : α → List Nat) (key : List Nat) :
    LookupPositionInDictNameList mustFind nm key ([] : List α) = none := by
  have hloop : lookupLoop nm key ([] : List α) 0
      (((([] : List α).length : Int)) - 1) = (0, (([] : List α).length : Int) - 1) := by
    rw [lookupLoop, dif_neg]
    simp
  unfold LookupPositionInDictNameList
  rw [hloop]
  simp

/-! ### The claims -/

/-- Claim C1: for every dictionary mapping entities to distinct name strings,
with any number (zero or more) of entries, `SortDictIntoListOnNames` produces
a list in non-decreasing lexicographic (`wcscmp`) order of the entities
assigned names. -/
theorem C1_sortDict_sorted {α : Type} [Inhabited α] (nm : α → List Nat)
    (keys : List α)
    (hdistinct : keys.Pairwise (fun a b => nm a ≠ nm b)) :
    (SortDictIntoListOnNames nm keys).Pairwise
      (fun x y => wcscmp (nm x) (nm y) ≤ 0) :=
  sortDict_pairwise nm keys

/-- Witness for C1 at a concrete dictionary with three distinctly named
entries. -/
theorem C1_witness :
    (([2, 0, 1] : List Nat).Pairwise
      (fun a b => exampleName a ≠ exampleName b)) ∧
    (SortDictIntoListOnNames exampleName [2, 0, 1]).Pairwise
      (fun x y => wcscmp (exampleName x) (exampleName y) ≤ 0) :=
  ⟨by decide, C1_sortDict_sorted exampleName [2, 0, 1] (by decide)⟩

/-- Claim C2, counterexample: on the 0-element list, "find or not-present"
mode does not return -1; the loop exits with `imin = 0`, `imax = -1` and the
fatal assert `imin == imax` fires (modelled `none`). -/
theorem C2_counterexample :
    LookupPositionInDictNameList false exampleName [0] ([] : List Nat) ≠
      some (-1) := by
  rw [lookup_empty false exampleName [0]]
  simp

/-- Claim C2 (amended): for every NON-EMPTY sorted name list, "find or
not-present" mode (`mustFind = false`) returns -1 when the key is absent,
including 1-element lists and lists with duplicate adjacent names; on the
0-element list the lookup instead fails its internal fatal assertion. -/
theorem C2_lookup_notfound {α : Type} [Inhabited α] (nm : α → List Nat)
    (key : List Nat) (l : List α) (hne : l ≠ [])
    (hs : l.Pairwise (fun x y => wcscmp (nm x) (nm y) ≤ 0))
    (habs : ∀ x ∈ l, nm x ≠ key) :
    LookupPositionInDictNameList false nm key l = some (-1) ∧
    LookupPositionInDictNameList false nm key ([] : List α) = none := by
  refine ⟨?_, lookup_empty false nm key⟩
  obtain ⟨r, hr, h0, hlen, hA, hC⟩ := lookup_exit nm key l hne hs
  have heval := lookup_eval false nm key l r hr
  have hne0 : wcscmp (nm (item l r.toNat)) key ≠ 0 := by
    intro h0'
    exact habs (item l r.toNat) (item_mem l r.toNat hlen)
      ((wcscmp_eq_zero_iff _ _).mp h0')
  rw [heval]
  simp [hne0]

/-- Witness for the amended C2 at a concrete sorted list with duplicate
adjacent names and an absent key, plus the 0-element case. -/
theorem C2_witness :
    (([1, 1, 3] : List Nat) ≠ [] ∧
      ([1, 1, 3] : List Nat).Pairwise
        (fun x y => wcscmp (exampleName x) (exampleName y) ≤ 0) ∧
      (∀ x ∈ ([1, 1, 3] : List Nat), exampleName x ≠ [2])) ∧
    LookupPositionInDictNameList false exampleName [2] [1, 1, 3] = some (-1) ∧
    LookupPositionInDictNameList false exampleName [2] ([] : List Nat) = none :=
  ⟨⟨by decide, by decide, by decide⟩,
    C2_lookup_notfound exampleName [2] [1, 1, 3] (by decide) (by decide)
      (by decide)⟩

/-- Claim C3: for every non-empty sorted name list, "must find" mode
(`mustFind = true`) returns the exact index of a present key (the first
position carrying the key, and no earlier position carries it), and fails
fatally (modelled `none`) when the key is absent. -/
theorem C3_lookup_mustFind {α : Type} [Inhabited α] (nm : α → List Nat)
    (key : List Nat) (l : List α) (hne : l ≠ [])
    (hs : l.Pairwise (fun x y => wcscmp (nm x) (nm y) ≤ 0)) :
    ((∃ q, q < l.length ∧ nm (item l q) = key) →
      ∃ r : Int, LookupPositionInDictNameList true nm key l = some r ∧
        0 ≤ r ∧ r.toNat < l.length ∧ nm (item l r.toNat) = key ∧
        (∀ p, p < r.toNat → nm (item l p) ≠ key)) ∧
    ((∀ x ∈ l, nm x ≠ key) →
      LookupPositionInDictNameList true nm key l = none) := by
  constructor
  · rintro ⟨q, hq1, hq2⟩
    obtain ⟨r, hr, h0, hlen, hA, hC⟩ := lookup_exit nm key l hne hs
    have hkey : nm (item l r.toNat) = key := hC ⟨q, hq1, hq2⟩
    have heval := lookup_eval true nm key l r hr
    refine ⟨r, ?_, h0, hlen, hkey, ?_⟩
    · rw [heval]
      simp [hkey, wcscmp_self]
    · intro p hp hpeq
      have hlt := hA p hp
      rw [hpeq, wcscmp_self] at hlt
      omega
  · intro habs
    obtain ⟨r, hr, h0, hlen, hA, hC⟩ := lookup_exit nm key l hne hs
    have heval := lookup_eval true nm key l r hr
    have hne0 : wcscmp (nm (item l r.toNat)) key ≠ 0 := by
      intro h0'
      exact habs (item l r.toNat) (item_mem l r.toNat hlen)
        ((wcscmp_eq_zero_iff _ _).mp h0')
    rw [heval]
    simp [hne0]

/-- Witness for C3: a present key is found at its exact index, and an absent
key on the same list fails fatally, both on a concrete sorted list. -/
theorem C3_witness :
    (([4, 5, 6] : List Nat) ≠ [] ∧
      ([4, 5, 6] : List Nat).Pairwise
        (fun x y => wcscmp (exampleName x) (exampleName y) ≤ 0) ∧
      (∃ q, q < ([4, 5, 6] : List Nat).length ∧
        exampleName (item ([4, 5, 6] : List Nat) q) = [5]) ∧
      (∀ x ∈ ([4, 5, 6] : List Nat), exampleName x ≠ [9])) ∧
    (∃ r : Int, LookupPositionInDictNameList true exampleName [5] [4, 5, 6] =
        some r ∧ 0 ≤ r ∧ r.toNat < ([4, 5, 6] : List Nat).length ∧
        exampleName (item ([4, 5, 6] : List Nat) r.toNat) = [5] ∧
        (∀ p, p < r.toNat → exampleName (item ([4, 5, 6] : List Nat) p) ≠ [5])) ∧
    LookupPositionInDictNameList true exampleName [9] [4, 5, 6] = none :=
  ⟨⟨by decide, by decide, ⟨1, by decide, by decide⟩, by decide⟩,
    (C3_lookup_mustFind exampleName [5] [4, 5, 6] (by decide) (by decide)).1
      ⟨1, by decide, by decide⟩,
    (C3_lookup_mustFind exampleName [9] [4, 5, 6] (by decide) (by decide)).2
      (by decide)⟩

/-- Claim C4: `SortDictIntoListOnNames` sorts using exactly the gap sequence
{701, 301, 132, 57, 23, 10, 4, 1} applied in that order: it is the left fold
of the per-gap pass over precisely that list, and each pass (the middle loop
started at `i = gap`) is an insertion sort restricted to elements `gap`
apart, performed on the list in place: it permutes the list and leaves every
chain of positions `gap` apart sorted by name. -/
theorem C4_sortDict_gap_sequence {α : Type} [Inhabited α] (nm : α → List Nat)
    (keys : List α) :
    SortDictIntoListOnNames nm keys =
      [701, 301, 132, 57, 23, 10, 4, 1].foldl
        (fun l gap => gapPassAux nm gap keys.length l gap) keys ∧
    (∀ gap (l : List α), gap ∈ gaps → l.length = keys.length →
      List.Perm (gapPassAux nm gap keys.length l gap) l ∧
      GSortedBelow nm gap (gapPassAux nm gap keys.length l gap) keys.length) := by
  refine ⟨rfl, ?_⟩
  intro gap l hgap hlen
  exact gapPass_spec nm gap keys.length l (gaps_pos gap hgap) hlen

/-- Witness for C4 at a concrete dictionary, exercising the pass
characterization at the gap 4 on a concrete 3-element list. -/
theorem C4_witness :
    (SortDictIntoListOnNames exampleName [3, 1, 2] =
      [701, 301, 132, 57, 23, 10, 4, 1].foldl
        (fun l gap => gapPassAux exampleName gap ([3, 1, 2] : List Nat).length l gap)
        [3, 1, 2]) ∧
    ((4 : Nat) ∈ gaps ∧ ([5, 4, 6] : List Nat).length = ([3, 1, 2] : List Nat).length ∧
      List.Perm (gapPassAux exampleName 4 ([3, 1, 2] : List Nat).length [5, 4, 6] 4)
        [5, 4, 6] ∧
      GSortedBelow exampleName 4
        (gapPassAux exampleName 4 ([3, 1, 2] : List Nat).length [5, 4, 6] 4)
        ([3, 1, 2] : List Nat).length) :=
  ⟨(C4_sortDict_gap_sequence exampleName [3, 1, 2]).1,
    by decide, by decide,
    (C4_sortDict_gap_sequence exampleName [3, 1, 2]).2 4 [5, 4, 6]
      (by decide) (by decide)⟩

/-- Claim C5 (spec-modelled): registration succeeds exactly while it would not
push the live-context count past `MAX_CONTEXT_COUNT` = 32: from an empty
registry, any sequence of at most 32 registrations succeeds with the live
count equal to the number registered, and a further registration on a full
registry fails with the fatal capacity error (so the live count stays 32). -/
theorem C5_context_capacity {Ctx : Type} :
    (∀ ctxs : List Ctx, ctxs.length ≤ MAX_CONTEXT_COUNT →
      registerAll ([] : List Ctx) ctxs = some ctxs) ∧
    (∀ (s : List Ctx) (c : Ctx), MAX_CONTEXT_COUNT ≤ s.length →
      AddNewScriptContextRecord s c = none) := by
  constructor
  · intro ctxs h
    have hreg := registerAll_ok ctxs ([] : List Ctx) (by simpa using h)
    simpa using hreg
  · intro s c h
    exact addContext_full s c h

/-- Witness for C5: 32 consecutive registrations from empty succeed and the
33rd fails with the count still 32. -/
theorem C5_witness :
    ((List.range 32).length ≤ MAX_CONTEXT_COUNT ∧
      registerAll ([] : List Nat) (List.range 32) = some (List.range 32)) ∧
    (MAX_CONTEXT_COUNT ≤ (List.range 32).length ∧
      AddNewScriptContextRecord (List.range 32) 99 = none) :=
  ⟨⟨by decide, C5_context_capacity.1 (List.range 32) (by decide)⟩,
    ⟨by decide, C5_context_capacity.2 (List.range 32) 99 (by decide)⟩⟩

/-- Claim C6 (spec-modelled): the pending async buffer-modification queue is
FIFO: for every sequence of `AddToAsyncPendingList` calls on the initially
empty queue, draining with `GetFromAsyncPendingList` yields the pending
modifications in exactly the order they were enqueued, with no deduplication
or reordering; in particular enqueuing M1 then M2 yields M1 before M2. -/
theorem C6_async_fifo {Var : Type} :
    ∀ ms : List (TTDPendingAsyncBufferModification Var),
      drainAsyncPendingList (ms.foldl AddToAsyncPendingList []) = ms := by
  intro ms
  rw [addToAsync_foldl ms [], List.nil_append, drainAsync_id]

/-- Claim C7 (spec-modelled): for every object assigned a PathToken by the
well-known-path walk (a well-formed path dictionary), looking up the object
resolved path returns the same object; function bodies and debugger scopes
use the same generic dictionary operations. -/
theorem C7_path_roundtrip {Obj Path : Type} [DecidableEq Obj] [DecidableEq Path]
    (m : List (Obj × Path)) (obj : Obj) (path : Path) (hwf : PathMapWF m)
    (hres : ResolvePathForKnownObject m obj = some path) :
    LookupKnownObjectFromPath m path = some obj := by
  obtain ⟨e0, hmem0, he01, he02⟩ := pathMap_of_resolve hres
  unfold LookupKnownObjectFromPath
  have hsome : (m.find? (fun e => decide (e.2 = path))).isSome := by
    rw [List.find?_isSome]
    exact ⟨e0, hmem0, by simp [he02]⟩
  cases hfind : m.find? (fun e => decide (e.2 = path)) with
  | none =>
    rw [hfind] at hsome
    simp at hsome
  | some e1 =>
    have he12 : e1.2 = path := by simpa using List.find?_some hfind
    have hmem1 := List.mem_of_find?_eq_some hfind
    have heq : e1 = e0 :=
      List.inj_on_of_nodup_map hwf.2 hmem1 hmem0 (by rw [he12, he02])
    simp [heq, he01]

/-- Witness for C7 at a concrete two-entry path map. -/
theorem C7_witness :
    (PathMapWF ([(0, 10), (1, 11)] : List (Nat × Nat)) ∧
      ResolvePathForKnownObject ([(0, 10), (1, 11)] : List (Nat × Nat)) 1 =
        some 11) ∧
    LookupKnownObjectFromPath ([(0, 10), (1, 11)] : List (Nat × Nat)) 11 =
      some 1 :=
  ⟨⟨⟨by decide, by decide⟩, by decide⟩,
    C7_path_roundtrip [(0, 10), (1, 11)] 1 11 ⟨by decide, by decide⟩
      (by decide)⟩

/-- Claim C8 (spec-modelled): `NotifyCtxDestroyInRecord`, called with a
context that is not in the tracked-context map, is a no-op: the whole
registry state is returned unchanged (it performs only the map-membership
check). -/
theorem C8_destroy_notTracked_noop {Ctx Ref Dead : Type} [DecidableEq Ctx]
    (s : ThreadContextTTDState Ctx Ref Dead) (ctx : Ctx)
    (habs : ∀ e ∈ s.ttdContextToExternalRefMap, e.1 ≠ ctx) :
    NotifyCtxDestroyInRecord s ctx = s := by
  unfold NotifyCtxDestroyInRecord
  have hcond : ¬ (s.ttdContextToExternalRefMap.any
      (fun e => decide (e.1 = ctx)) = true) := by
    intro hany
    obtain ⟨e, hmem, he⟩ := List.any_eq_true.mp hany
    exact habs e hmem (of_decide_eq_true he)
  rw [if_neg hcond]

/-- Witness for C8 at a concrete registry state and an untracked context. -/
theorem C8_witness :
    (∀ e ∈ ([(2, 7)] : List (Nat × Nat)), e.1 ≠ 5) ∧
    NotifyCtxDestroyInRecord
      ({ activeContext := none, contextList := [1],
         deadScriptRecordList := ([] : List Nat),
         ttdContextToExternalRefMap := [(2, 7)] } :
        ThreadContextTTDState Nat Nat Nat) 5 =
      { activeContext := none, contextList := [1],
        deadScriptRecordList := ([] : List Nat),
        ttdContextToExternalRefMap := [(2, 7)] } :=
  ⟨by decide,
    C8_destroy_notTracked_noop
      { activeContext := none, contextList := [1],
        deadScriptRecordList := ([] : List Nat),
        ttdContextToExternalRefMap := [(2, 7)] } 5 (by decide)⟩

/-- Claim C9: for every input dictionary, the list produced by
`SortDictIntoListOnNames` is a permutation of the dictionary key list: every
key appears exactly once in the output and nothing else does. -/
theorem C9_sortDict_permutation {α : Type} [Inhabited α] (nm : α → List Nat)
    (keys : List α) :
    List.Perm (SortDictIntoListOnNames nm keys) keys :=
  sortDict_perm nm keys

/-- Claim C10: the binary-search loop terminates: on every iteration with
`0 ≤ imin < imax` the midpoint satisfies `imin ≤ imid < imax` (the in-loop
`AssertMsg` holds) and the interval measure strictly shrinks in both
branches, and from any well-formed interval the loop exits with
`imin = imax` (the `TTDAssert` after the loop holds). -/
theorem C10_lookupLoop_terminates {α : Type} [Inhabited α]
    (nm : α → List Nat) (key : List Nat) (l : List α) :
    (∀ imin imax : Int, 0 ≤ imin → imin < imax →
      imin ≤ (imin + imax) / 2 ∧ (imin + imax) / 2 < imax ∧
      (imax - ((imin + imax) / 2 + 1)).toNat < (imax - imin).toNat ∧
      ((imin + imax) / 2 - imin).toNat < (imax - imin).toNat) ∧
    (∀ imin imax : Int, 0 ≤ imin → imin ≤ imax →
      ∃ r : Int, lookupLoop nm key l imin imax = (r, r) ∧
        imin ≤ r ∧ r ≤ imax) :=
  ⟨fun imin imax h0 h1 => ⟨by omega, by omega, by omega, by omega⟩,
    lookupLoop_exits nm key l⟩

/-- Witness for C10 on a concrete list and interval. -/
theorem C10_witness :
    ((0 : Int) ≤ 0 ∧ (0 : Int) < 5 ∧
      (0 : Int) ≤ (0 + 5) / 2 ∧ ((0 : Int) + 5) / 2 < 5 ∧
      ((5 : Int) - ((0 + 5) / 2 + 1)).toNat < ((5 : Int) - 0).toNat ∧
      (((0 : Int) + 5) / 2 - 0).toNat < ((5 : Int) - 0).toNat) ∧
    ((0 : Int) ≤ 0 ∧ (0 : Int) ≤ 2 ∧
      ∃ r : Int, lookupLoop exampleName [2] [1, 2, 3] 0 2 = (r, r) ∧
        0 ≤ r ∧ r ≤ 2) :=
  ⟨⟨by decide, by decide,
    (C10_lookupLoop_terminates exampleName [2] [1, 2, 3]).1 0 5 (by decide)
      (by decide)⟩,
    ⟨by decide, by decide,
      (C10_lookupLoop_terminates exampleName [2] [1, 2, 3]).2 0 2 (by decide)
        (by decide)⟩⟩

end ChakraTTD
